import Mathlib

/-
Verification of the pipeline operations layer (pipeline_dp/pipeline_operations.py).

The file shallowly embeds the four backends of the operator contract:
  LocalPipelineOperations          (sequential reference backend),
  MultiProcLocalPipelineOperations (parallel engine over a process pool),
  SparkRDDOperations and BeamOperations (only the parts the claims touch).

Collections are Lean lists.  Nondeterminism of the process pool (completion
order of imap_unordered, iteration order of a Python set) is made explicit:
a definition takes the realized order as an argument and the theorems
quantify over every order admissible for the input (a permutation of the
input, resp. of its distinct keys).  Python exceptions are modelled by the
PyExc type and fallible calls return Except PyExc.
-/

namespace PipelineOps

/-- Python exceptions that the embedded code can raise.  `typeError`,
`notImplementedError` and `valueError` correspond to the built-in Python
exceptions actually raised by the source.  `invalidArgument` and
`executionError` are Modelled from the spec: the spec's error taxonomy names
`InvalidArgument` and `ExecutionError` (the latter wrapping an original
failure), but no such classes exist anywhere in the source. -/
inductive PyExc where
  | typeError
  | notImplementedError
  | valueError
  | invalidArgument
  | executionError (cause : PyExc)
deriving DecidableEq, Repr

/-- Python membership test `k in keys` where `keys` may be `None`:
`k in None` raises `TypeError` (NoneType is not iterable / not a container). -/
def py_in {κ : Type} [DecidableEq κ] (k : κ) (keys : Option (List κ)) :
    Except PyExc Bool :=
  match keys with
  | none => .error .typeError
  | some ks => .ok (decide (k ∈ ks))

/-- Keys of a Python dict built by inserting the elements of `col` in order:
first-occurrence order, each key once.  Models the iteration order of
`dict` / `collections.Counter` (insertion ordered in Python 3.7+). -/
def py_dict_keys {α : Type} [DecidableEq α] (col : List α) : List α :=
  col.foldl (fun acc x => if x ∈ acc then acc else acc ++ [x]) []

/-- One step of `collections.defaultdict(list)`: `d[key].append(value)`.
If the key is present its (first) entry gets the value appended, keeping the
dict order; otherwise a fresh entry is added at the end (insertion order). -/
def dict_append {κ ν : Type} [DecidableEq κ]
    (d : List (κ × List ν)) (k : κ) (v : ν) : List (κ × List ν) :=
  match d with
  | [] => [(k, [v])]
  | (k0, vs) :: rest =>
    if k0 = k then (k0, vs ++ [v]) :: rest else (k0, vs) :: dict_append rest k v

namespace LocalPipelineOperations

/-- `LocalPipelineOperations.map`: `map(fn, col)`. -/
def map {α β : Type} (fn : α → β) (col : List α) : List β := col.map fn

/-- `LocalPipelineOperations.map_values`: `((k, fn(v)) for k, v in col)`. -/
def map_values {κ ν ξ : Type} (fn : ν → ξ) (col : List (κ × ν)) :
    List (κ × ξ) :=
  col.map (fun kv => (kv.1, fn kv.2))

/-- `LocalPipelineOperations.group_by_key`: a `defaultdict(list)` filled by
`d[key].append(value)` over the input in order, then its items in dict
(insertion) order. -/
def group_by_key {κ ν : Type} [DecidableEq κ] (col : List (κ × ν)) :
    List (κ × List ν) :=
  col.foldl (fun d kv => dict_append d kv.1 kv.2) []

/-- `LocalPipelineOperations.filter`: `filter(fn, col)`. -/
def filter {α : Type} (fn : α → Bool) (col : List α) : List α :=
  col.filter fn

/-- `LocalPipelineOperations.filter_by_key`: the eager list comprehension
`[(extractor(x), x) for x in col if extractor(x) in keys_to_keep]`.
The membership test runs per element, so an absent (`None`) keep-list raises
`TypeError` on the first element and an empty input returns `[]` unscathed. -/
def filter_by_key {κ α : Type} [DecidableEq κ]
    (keys_to_keep : Option (List κ)) (extractor : α → κ) :
    List α → Except PyExc (List (κ × α))
  | [] => .ok []
  | x :: rest => do
    let b ← py_in (extractor x) keys_to_keep
    let tail ← filter_by_key keys_to_keep extractor rest
    pure (if b then (extractor x, x) :: tail else tail)

/-- `LocalPipelineOperations.keys`: `(k for k, v in col)`. -/
def keys {κ ν : Type} (col : List (κ × ν)) : List κ := col.map Prod.fst

/-- `LocalPipelineOperations.sample_fixed_per_key`: for each group of
`group_by_key`, if the group holds more than `n` values, keep
`[values[i] for i in sampled_indices]` where `sampled_indices` is the draw
`np.random.choice(range(len(values)), n, replace=False)`; otherwise keep the
whole group.  The numpy draw is external randomness and is passed in as the
oracle `choice len n` (see `ValidChoice` for the properties numpy guarantees:
`n` distinct indices below `len`). -/
def sample_fixed_per_key {κ ν : Type} [DecidableEq κ]
    (choice : Nat → Nat → List Nat) (n : Nat) (col : List (κ × ν)) :
    List (κ × List ν) :=
  (group_by_key col).map
    (fun item =>
      let vs := item.2
      if n < vs.length then
        (item.1, (choice vs.length n).filterMap (fun i => vs.get? i))
      else (item.1, vs))

/-- `LocalPipelineOperations.reduce_accumulators_per_key`:
`raise NotImplementedError()`. -/
def reduce_accumulators_per_key {κ ν : Type} (col : List (κ × ν)) :
    Except PyExc (List (κ × ν)) :=
  .error .notImplementedError

end LocalPipelineOperations

namespace LazyMultiProcMapIterator

/-- `_LazyMultiProcMapIterator._trigger_iterations`: if `self._outputs is
None`, instantiate the pool and set `_outputs` to
`pool.imap_unordered(_pool_worker, job_inputs, chunksize)`; otherwise do
nothing.  The unordered pool delivers results in completion order, a
permutation of the input order; `arrival` is that realized completion order
of the inputs (theorems quantify over every `arrival` permuting the input).
The state `outputs` holds the elements the cached result iterator has not yet
yielded (`none` = not triggered). -/
def trigger_iterations {α β : Type} (map_fn : α → β) (arrival : List α)
    (outputs : Option (List β)) : Option (List β) :=
  match outputs with
  | none => some (arrival.map map_fn)
  | some rem => some rem

/-- `_LazyMultiProcIterator.__iter__` for the unordered flavor: trigger (at
most once), then `yield from self._outputs`.  `_outputs` is the pool's
`imap_unordered` iterator, a one-shot object: yielding from it consumes it,
so the state left behind holds no further elements.  Returns the yielded
sequence and the state after iteration. -/
def iter {α β : Type} (map_fn : α → β) (arrival : List α)
    (outputs : Option (List β)) : List β × Option (List β) :=
  match trigger_iterations map_fn arrival outputs with
  | some rem => (rem, some [])
  | none => ([], none)

end LazyMultiProcMapIterator

namespace LazyMultiProcOrderedMapIterator

/-- `_LazyMultiProcOrderedMapIterator._trigger_iterations`: if `_outputs is
None`, set it to `pool.map(_pool_worker, job_inputs, chunksize)` — a fully
materialized list in input submission order; otherwise do nothing. -/
def trigger_iterations {α β : Type} (map_fn : α → β) (inputs : List α)
    (outputs : Option (List β)) : Option (List β) :=
  match outputs with
  | none => some (inputs.map map_fn)
  | some out => some out

/-- `__iter__` for the ordered flavor: trigger (at most once), then
`yield from self._outputs`.  Here `_outputs` is a plain list, so iterating
does not consume it: the state keeps the full list. -/
def iter {α β : Type} (map_fn : α → β) (inputs : List α)
    (outputs : Option (List β)) : List β × Option (List β) :=
  match trigger_iterations map_fn inputs outputs with
  | some out => (out, some out)
  | none => ([], none)

end LazyMultiProcOrderedMapIterator

/-- `multiprocessing.Pool.map` with a task that can raise, as used through
`_LazyMultiProcOrderedMapIterator`: evaluates the task on every input in
submission order; if any task raises, the whole call raises that original
exception and no result list is produced. -/
def pool_map {α β : Type} (job : α → Except PyExc β) :
    List α → Except PyExc (List β)
  | [] => .ok []
  | x :: rest => do
    let y ← job x
    let ys ← pool_map job rest
    pure (y :: ys)

/-- Consuming `multiprocessing.Pool.imap_unordered` with a task that can
raise: results are yielded in completion order (`arrival`); when the consumer
reaches a failed task's slot the original exception is raised.  Returns the
results observed before the failure and the exception, if any. -/
def imap_unordered_consume {α β : Type} (job : α → Except PyExc β) :
    List α → List β × Option PyExc
  | [] => ([], none)
  | x :: rest =>
    match job x with
    | .ok y =>
      let r := imap_unordered_consume job rest
      (y :: r.1, r.2)
    | .error e => ([], some e)

namespace MultiProcLocalPipelineOperations

/-- `MultiProcLocalPipelineOperations.map`: a `_LazyMultiProcMapIterator`
over the input; consuming it yields `fn` of each input in completion order
`arrival` (a permutation of the input collection). -/
def map {α β : Type} (fn : α → β) (arrival : List α) : List β :=
  arrival.map fn

/-- `MultiProcLocalPipelineOperations.map_values`:
`self.map(col, lambda x: (x[0], fn(x[1])))`. -/
def map_values {κ ν ξ : Type} (fn : ν → ξ) (arrival : List (κ × ν)) :
    List (κ × ξ) :=
  map (fun x => (x.1, fn x.2)) arrival

/-- `MultiProcLocalPipelineOperations.group_by_key`: `keys = set(self.keys(col))`
(iterated in the arbitrary but fixed order `key_order`, a permutation of the
distinct keys), a manager dict with one empty manager list per key, then
`insert_row` dispatched per element through the unordered pool (completion
order `arrival`, a permutation of the input); each insert appends the value
to its key's list, so a key's list holds its values in arrival order; finally
the dict is copied out in its insertion order `key_order`. -/
def group_by_key {κ ν : Type} [DecidableEq κ]
    (key_order : List κ) (arrival : List (κ × ν)) : List (κ × List ν) :=
  key_order.map
    (fun k => (k, (arrival.filter (fun kv => decide (kv.1 = k))).map Prod.snd))

/-- `MultiProcLocalPipelineOperations.filter`: per-element booleans from an
ordered-mode `_LazyMultiProcOrderedMapIterator` (submission order), zipped
back against the original input:
`(row for row, keep in zip(col, ordered_predicates) if keep)`. -/
def filter {α : Type} (fn : α → Bool) (col : List α) : List α :=
  ((col.zip (col.map fn)).filter (fun rk => rk.2)).map (fun rk => rk.1)

/-- The code the body of `MultiProcLocalPipelineOperations.filter_by_key`
runs at call time: it only builds `mapped_fn` via `functools` and a generator
expression; nothing touches `public_partitions`, so the call itself raises
nothing, for any argument. -/
def filter_by_key_call {κ : Type} (keys_to_keep : Option (List κ)) :
    Except PyExc Unit :=
  .ok ()

/-- Consuming the collection `MultiProcLocalPipelineOperations.filter_by_key`
returned: `mapped_fn` computes `(key, key in public_partitions)` per element
through the ordered pool (raising `TypeError` inside the worker when the
keep-list is `None`), and the resulting pairs are zipped back against the
original input: `((key, row) for row, (key, keep) in zip(col, ...) if keep)`. -/
def filter_by_key_force {κ α : Type} [DecidableEq κ]
    (keys_to_keep : Option (List κ)) (extractor : α → κ) (col : List α) :
    Except PyExc (List (κ × α)) := do
  let pairs ← pool_map
    (fun row => do
      let b ← py_in (extractor row) keys_to_keep
      pure (extractor row, b))
    col
  pure
    (((col.zip pairs).filter (fun rk => rk.2.2)).map (fun rk => (rk.2.1, rk.1)))

/-- `MultiProcLocalPipelineOperations.keys`: `(k for k, v in col)` (bypasses
the pool, so order is the input order). -/
def keys {κ ν : Type} (col : List (κ × ν)) : List κ := col.map Prod.fst

/-- `MultiProcLocalPipelineOperations.sample_fixed_per_key`: map `mapped_fn`
(through the unordered pool) over the output of `group_by_key`; per group,
if it has more than `n` values replace them by `random.sample(values, n)`.
The `random.sample` draw is external randomness, passed in as the oracle
`py_sample` (see `ValidSample`); `groups_arrival` is the completion order of
the groups in the outer unordered map, a permutation of the `group_by_key`
output. -/
def sample_fixed_per_key {κ ν : Type}
    (py_sample : List ν → Nat → List ν) (n : Nat)
    (groups_arrival : List (κ × List ν)) : List (κ × List ν) :=
  map
    (fun row => if n < row.2.length then (row.1, py_sample row.2 n) else row)
    groups_arrival

/-- `MultiProcLocalPipelineOperations.reduce_accumulators_per_key`:
`self.map_values(col, accumulator.merge)`.  The value function `merge` is
Modelled from the spec: the external accumulator module (absent from src)
exposes the merge operation that this call installs as the per-value
function.  Note the body applies it to each pair's value separately; no
grouping by key happens. -/
def reduce_accumulators_per_key {κ ν ξ : Type} (merge : ν → ξ)
    (arrival : List (κ × ν)) : List (κ × ξ) :=
  map_values merge arrival

end MultiProcLocalPipelineOperations

namespace SparkRDDOperations

/-- Left fold of the binary accumulator merge over a group of values, seeded
by the first: how `rdd.reduceByKey(lambda a1, a2: a1.add_accumulator(a2))`
combines one key's values. -/
def reduce_vals {ν : Type} (add : ν → ν → ν) : List ν → Option ν
  | [] => none
  | v :: rest => some (rest.foldl add v)

/-- `SparkRDDOperations.reduce_accumulators_per_key`:
`rdd.reduceByKey(lambda acc1, acc2: acc1.add_accumulator(acc2))`.  Models the
documented semantics of PySpark reduceByKey (merge the values for each key
using the reduce function); output key order is unspecified in Spark, modelled
here as first-occurrence order, and the claims about it are order-insensitive. -/
def reduce_accumulators_per_key {κ ν : Type} [DecidableEq κ]
    (add : ν → ν → ν) (col : List (κ × ν)) : List (κ × ν) :=
  (LocalPipelineOperations.group_by_key col).filterMap
    (fun g => (reduce_vals add g.2).map (fun v => (g.1, v)))

/-- `SparkRDDOperations.filter_by_key` for an in-memory keep-list: raises
`TypeError` synchronously when `keys_to_keep is None`, else maps each element
to `(partition_extractor(x), x)` and filters on key membership (the RDD
transformations are lazy, but the `None` check runs at call time). -/
def filter_by_key {κ α : Type} [DecidableEq κ]
    (keys_to_keep : Option (List κ)) (extractor : α → κ) (col : List α) :
    Except PyExc (List (κ × α)) :=
  match keys_to_keep with
  | none => .error .typeError
  | some ks =>
    .ok ((col.map (fun x => (extractor x, x))).filter
      (fun kv => decide (kv.1 ∈ ks)))

end SparkRDDOperations

namespace BeamOperations

/-- `BeamOperations.filter_by_key` for an in-memory keep-list: raises
`TypeError("Must provide a valid keys to keep")` synchronously when
`keys_to_keep is None`, else maps each element to
`(partition_extractor(x), x)` and keeps those whose key is in the set
(the distributed, join-based branch for PCollection keep-lists is outside
these claims). -/
def filter_by_key {κ α : Type} [DecidableEq κ]
    (keys_to_keep : Option (List κ)) (extractor : α → κ) (col : List α) :
    Except PyExc (List (κ × α)) :=
  match keys_to_keep with
  | none => .error .typeError
  | some ks =>
    .ok ((col.map (fun x => (extractor x, x))).filter
      (fun kv => decide (kv.1 ∈ ks)))

end BeamOperations

/-- The guarantees `np.random.choice(range(len), n, replace=False)` gives for
its returned index list whenever it is invoked with `n < len` (the only case
the source invokes it in): `n` indices, pairwise distinct (no replacement),
all below `len`. -/
def ValidChoice (choice : Nat → Nat → List Nat) : Prop :=
  ∀ len n, n < len →
    (choice len n).length = n ∧ (choice len n).Nodup ∧
      ∀ i ∈ choice len n, i < len

/-- The guarantees `random.sample(population, k)` gives whenever it is invoked
with `k` smaller than the population size (the only case the source invokes
it in): `k` elements drawn without replacement, i.e. a length-`k`
sub-multiset of the population. -/
def ValidSample {ν : Type} (py_sample : List ν → Nat → List ν) : Prop :=
  ∀ (vs : List ν) n, n < vs.length →
    (py_sample vs n).length = n ∧
      (py_sample vs n : Multiset ν) ≤ (vs : Multiset ν)

/-! ### Helper lemmas about python dict insertion order and grouping -/

lemma mem_py_dict_keys_loop {α : Type} [DecidableEq α] (l : List α) :
    ∀ (acc : List α) (y : α),
      y ∈ l.foldl (fun acc x => if x ∈ acc then acc else acc ++ [x]) acc ↔
        y ∈ acc ∨ y ∈ l := by
  induction l with
  | nil => simp
  | cons x l ih =>
    intro acc y
    simp only [List.foldl_cons, ih, List.mem_cons]
    by_cases hx : x ∈ acc
    · simp only [if_pos hx]
      constructor
      · rintro (h | h)
        · exact Or.inl h
        · exact Or.inr (Or.inr h)
      · rintro (h | h | h)
        · exact Or.inl h
        · exact Or.inl (h ▸ hx)
        · exact Or.inr h
    · simp only [if_neg hx, List.mem_append, List.mem_singleton]
      tauto

lemma nodup_py_dict_keys_loop {α : Type} [DecidableEq α] (l : List α) :
    ∀ acc : List α, acc.Nodup →
      (l.foldl (fun acc x => if x ∈ acc then acc else acc ++ [x]) acc).Nodup := by
  induction l with
  | nil => intro acc h; simpa using h
  | cons x l ih =>
    intro acc hacc
    simp only [List.foldl_cons]
    by_cases hx : x ∈ acc
    · simpa [if_pos hx] using ih acc hacc
    · refine ih _ ?_
      rw [if_neg hx]
      simp [List.nodup_append, hacc, hx]

lemma mem_py_dict_keys {α : Type} [DecidableEq α] (col : List α) (y : α) :
    y ∈ py_dict_keys col ↔ y ∈ col := by
  simpa using mem_py_dict_keys_loop col [] y

lemma nodup_py_dict_keys {α : Type} [DecidableEq α] (col : List α) :
    (py_dict_keys col).Nodup :=
  nodup_py_dict_keys_loop col [] List.nodup_nil

lemma py_dict_keys_concat {α : Type} [DecidableEq α] (l : List α) (x : α) :
    py_dict_keys (l ++ [x]) =
      if x ∈ py_dict_keys l then py_dict_keys l else py_dict_keys l ++ [x] := by
  simp [py_dict_keys, List.foldl_append]

lemma dict_append_on_map {κ ν : Type} [DecidableEq κ]
    (L : List κ) (g : κ → List ν) (k : κ) (v : ν) (hL : L.Nodup) :
    dict_append (L.map fun a => (a, g a)) k v =
      if k ∈ L then
        L.map (fun a => (a, if a = k then g a ++ [v] else g a))
      else (L.map fun a => (a, g a)) ++ [(k, [v])] := by
  induction L with
  | nil => simp [dict_append]
  | cons a L ih =>
    have haL : a ∉ L := (List.nodup_cons.mp hL).1
    have hLnd : L.Nodup := (List.nodup_cons.mp hL).2
    by_cases hak : a = k
    · subst hak
      rw [List.map_cons, if_pos (List.mem_cons_self a L)]
      simp only [dict_append, if_pos rfl, List.map_cons, eq_self_iff_true,
        if_true]
      congr 1
      refine (List.map_congr_left ?_).symm
      intro b hb
      have hba : ¬ (b = a) := fun h => haL (h ▸ hb)
      simp [hba]
    · simp only [List.map_cons, dict_append, if_neg hak, ih hLnd]
      by_cases hkL : k ∈ L
      · have hk : k ∈ a :: L := List.mem_cons_of_mem a hkL
        rw [if_pos hkL, if_pos hk]
      · have hk : k ∉ a :: L := by
          intro h
          rcases List.mem_cons.mp h with h1 | h2
          · exact hak h1.symm
          · exact hkL h2
        rw [if_neg hkL, if_neg hk]
        simp

lemma filter_eq_nil_of_key_not_mem {κ ν : Type} [DecidableEq κ]
    (col : List (κ × ν)) (k : κ) (hk : k ∉ col.map Prod.fst) :
    col.filter (fun kv => decide (kv.1 = k)) = [] := by
  refine List.filter_eq_nil_iff.mpr ?_
  intro kv hkv
  simp only [decide_eq_true_eq]
  intro h
  exact hk (List.mem_map.mpr ⟨kv, hkv, h⟩)

/-- Characterization of the sequential group_by_key: keys appear in
first-occurrence order and each key's values in input order. -/
lemma local_group_by_key_eq {κ ν : Type} [DecidableEq κ] (col : List (κ × ν)) :
    LocalPipelineOperations.group_by_key col =
      (py_dict_keys (col.map Prod.fst)).map
        (fun k => (k, (col.filter (fun kv => decide (kv.1 = k))).map Prod.snd)) := by
  induction col using List.reverseRecOn with
  | nil => simp [LocalPipelineOperations.group_by_key, py_dict_keys]
  | append_singleton col x ih =>
    have step : LocalPipelineOperations.group_by_key (col ++ [x]) =
        dict_append (LocalPipelineOperations.group_by_key col) x.1 x.2 := by
      simp [LocalPipelineOperations.group_by_key, List.foldl_append]
    rw [step, ih,
      dict_append_on_map _ _ _ _ (nodup_py_dict_keys (col.map Prod.fst))]
    have hkeys : py_dict_keys ((col ++ [x]).map Prod.fst) =
        if x.1 ∈ py_dict_keys (col.map Prod.fst) then
          py_dict_keys (col.map Prod.fst)
        else py_dict_keys (col.map Prod.fst) ++ [x.1] := by
      simp [py_dict_keys_concat]
    have hfilter : ∀ a : κ,
        ((col ++ [x]).filter (fun kv => decide (kv.1 = a))).map Prod.snd =
          (col.filter (fun kv => decide (kv.1 = a))).map Prod.snd ++
            (if x.1 = a then [x.2] else []) := by
      intro a
      rw [List.filter_append]
      by_cases h : x.1 = a
      · simp [List.filter, h]
      · simp [List.filter, h]
    by_cases hmem : x.1 ∈ py_dict_keys (col.map Prod.fst)
    · rw [if_pos hmem, hkeys, if_pos hmem]
      refine (List.map_congr_left ?_).symm
      intro a ha
      rw [hfilter a]
      by_cases hax : a = x.1
      · simp [hax]
      · have : ¬ (x.1 = a) := fun h => hax h.symm
        simp [hax, this]
    · rw [if_neg hmem, hkeys, if_neg hmem, List.map_append]
      congr 1
      · refine (List.map_congr_left ?_).symm
        intro a ha
        rw [hfilter a]
        have hax : ¬ (x.1 = a) := by
          intro h
          exact hmem (h ▸ ha)
        simp [hax]
      · have hx1 : x.1 ∉ col.map Prod.fst := by
          intro h
          exact hmem ((mem_py_dict_keys _ _).mpr h)
        simp [hfilter, filter_eq_nil_of_key_not_mem col x.1 hx1]

lemma local_group_keys {κ ν : Type} [DecidableEq κ] (col : List (κ × ν)) :
    (LocalPipelineOperations.group_by_key col).map Prod.fst =
      py_dict_keys (col.map Prod.fst) := by
  rw [local_group_by_key_eq, List.map_map]
  have hcomp :
      (Prod.fst ∘ fun k =>
        (k, (col.filter (fun kv => decide (kv.1 = k))).map Prod.snd)) =
        (id : κ → κ) := rfl
  rw [hcomp, List.map_id]

lemma local_group_mem {κ ν : Type} [DecidableEq κ] {col : List (κ × ν)}
    {k : κ} {vs : List ν}
    (h : (k, vs) ∈ LocalPipelineOperations.group_by_key col) :
    vs = (col.filter (fun kv => decide (kv.1 = k))).map Prod.snd := by
  rw [local_group_by_key_eq] at h
  rcases List.mem_map.mp h with ⟨a, _, ha2⟩
  have hk : a = k := congrArg Prod.fst ha2
  subst hk
  exact (congrArg Prod.snd ha2).symm

lemma mp_filter_eq_filter {α : Type} (p : α → Bool) (col : List α) :
    MultiProcLocalPipelineOperations.filter p col = col.filter p := by
  induction col with
  | nil => rfl
  | cons x xs ih =>
    simp only [MultiProcLocalPipelineOperations.filter, List.map_cons,
      List.zip_cons_cons, List.filter] at ih ⊢
    cases hp : p x
    · simpa [hp] using ih
    · simpa [hp] using ih

/-! ### Claim theorems -/

/-- C10: on the sequential local backend, `group_by_key` yields the distinct
keys in order of their first occurrence in the input, and each key's value
list preserves the relative input order of that key's values: it equals the
map, over the first-occurrence-ordered distinct keys, of the in-order
sublist of values paired with that key (and those keys are pairwise
distinct, so there is exactly one entry per distinct key). -/
theorem C10_local_group_by_key_deterministic_order {κ ν : Type}
    [DecidableEq κ] (col : List (κ × ν)) :
    LocalPipelineOperations.group_by_key col =
      (py_dict_keys (col.map Prod.fst)).map
        (fun k =>
          (k, (col.filter (fun kv => decide (kv.1 = k))).map Prod.snd)) ∧
    ((LocalPipelineOperations.group_by_key col).map Prod.fst).Nodup ∧
    ∀ k, k ∈ (LocalPipelineOperations.group_by_key col).map Prod.fst ↔
      k ∈ col.map Prod.fst := by
  refine ⟨local_group_by_key_eq col, ?_, ?_⟩
  · rw [local_group_keys]
    exact nodup_py_dict_keys _
  · intro k
    rw [local_group_keys]
    exact mem_py_dict_keys _ k

/-- C2: on both backends, `filter(col, p)` is exactly the order-preserving
subsequence of `col` whose elements satisfy `p`: the parallel engine's
zip-of-ordered-predicates construction and the sequential `filter` both
equal `List.filter p col`, which is a sublist of `col` and holds each
element satisfying `p` with its full input multiplicity and no element
failing `p`. -/
theorem C2_filter_subsequence {α : Type} [DecidableEq α]
    (p : α → Bool) (col : List α) :
    MultiProcLocalPipelineOperations.filter p col = col.filter p ∧
    LocalPipelineOperations.filter p col = col.filter p ∧
    (col.filter p).Sublist col ∧
    ∀ x, (col.filter p).count x = if p x then col.count x else 0 := by
  refine ⟨mp_filter_eq_filter p col, rfl, List.filter_sublist col, ?_⟩
  intro x
  cases hp : p x
  · simp [List.count_eq_zero, List.mem_filter, hp]
  · simp [List.count_filter hp]

lemma mp_group_keys {κ ν : Type} [DecidableEq κ]
    (key_order : List κ) (arrival : List (κ × ν)) :
    (MultiProcLocalPipelineOperations.group_by_key key_order arrival).map
      Prod.fst = key_order := by
  rw [MultiProcLocalPipelineOperations.group_by_key, List.map_map]
  have hcomp :
      (Prod.fst ∘ fun k =>
        (k, (arrival.filter (fun kv => decide (kv.1 = k))).map Prod.snd)) =
        (id : κ → κ) := rfl
  rw [hcomp, List.map_id]

lemma mp_group_mem {κ ν : Type} [DecidableEq κ]
    {key_order : List κ} {arrival : List (κ × ν)} {k : κ} {vs : List ν}
    (h : (k, vs) ∈
      MultiProcLocalPipelineOperations.group_by_key key_order arrival) :
    vs = (arrival.filter (fun kv => decide (kv.1 = k))).map Prod.snd := by
  rcases List.mem_map.mp h with ⟨a, _, ha2⟩
  have hk : a = k := congrArg Prod.fst ha2
  subst hk
  exact (congrArg Prod.snd ha2).symm

/-- C4: group completeness on both backends: `group_by_key` has pairwise
distinct output keys that are exactly the input's keys (one entry per
distinct key), and each key's output value list carries, as a multiset,
exactly the values paired with that key in the input.  The parallel engine
is quantified over every iteration order of its key set and every completion
order of its unordered pool. -/
theorem C4_group_by_key_completeness {κ ν : Type} [DecidableEq κ]
    (col : List (κ × ν)) (key_order : List κ) (arrival : List (κ × ν))
    (hko : key_order.Perm (py_dict_keys (col.map Prod.fst)))
    (harr : arrival.Perm col) :
    (((LocalPipelineOperations.group_by_key col).map Prod.fst).Nodup ∧
      (∀ k, k ∈ (LocalPipelineOperations.group_by_key col).map Prod.fst ↔
        k ∈ col.map Prod.fst) ∧
      ∀ k vs, (k, vs) ∈ LocalPipelineOperations.group_by_key col →
        (vs : Multiset ν) =
          (((col.filter (fun kv => decide (kv.1 = k))).map Prod.snd :
            List ν) : Multiset ν)) ∧
    (((MultiProcLocalPipelineOperations.group_by_key key_order
        arrival).map Prod.fst).Nodup ∧
      (∀ k, k ∈ (MultiProcLocalPipelineOperations.group_by_key key_order
          arrival).map Prod.fst ↔ k ∈ col.map Prod.fst) ∧
      ∀ k vs, (k, vs) ∈ MultiProcLocalPipelineOperations.group_by_key
          key_order arrival →
        (vs : Multiset ν) =
          (((col.filter (fun kv => decide (kv.1 = k))).map Prod.snd :
            List ν) : Multiset ν)) := by
  refine ⟨⟨?_, ?_, ?_⟩, ⟨?_, ?_, ?_⟩⟩
  · rw [local_group_keys]
    exact nodup_py_dict_keys _
  · intro k
    rw [local_group_keys]
    exact mem_py_dict_keys _ k
  · intro k vs h
    rw [local_group_mem h]
  · rw [mp_group_keys]
    exact hko.nodup_iff.mpr (nodup_py_dict_keys _)
  · intro k
    rw [mp_group_keys]
    rw [hko.mem_iff]
    exact mem_py_dict_keys _ k
  · intro k vs h
    rw [mp_group_mem h]
    exact Multiset.coe_eq_coe.mpr
      ((harr.filter (fun kv => decide (kv.1 = k))).map Prod.snd)

/-- C4 witness: both backends at a concrete input, key order and arrival
order. -/
theorem C4_group_by_key_completeness_witness :
    (([0, 1] : List Nat).Perm
        (py_dict_keys (([(0, 5), (1, 6), (0, 7)] : List (Nat × Nat)).map
          Prod.fst)) ∧
      ([(1, 6), (0, 7), (0, 5)] : List (Nat × Nat)).Perm
        [(0, 5), (1, 6), (0, 7)]) ∧
    ((((LocalPipelineOperations.group_by_key
          ([(0, 5), (1, 6), (0, 7)] : List (Nat × Nat))).map
          Prod.fst).Nodup ∧
      (∀ k, k ∈ (LocalPipelineOperations.group_by_key
          ([(0, 5), (1, 6), (0, 7)] : List (Nat × Nat))).map Prod.fst ↔
        k ∈ ([(0, 5), (1, 6), (0, 7)] : List (Nat × Nat)).map Prod.fst) ∧
      ∀ k vs, (k, vs) ∈ LocalPipelineOperations.group_by_key
          ([(0, 5), (1, 6), (0, 7)] : List (Nat × Nat)) →
        (vs : Multiset Nat) =
          (((([(0, 5), (1, 6), (0, 7)] : List (Nat × Nat)).filter
              (fun kv => decide (kv.1 = k))).map Prod.snd :
            List Nat) : Multiset Nat)) ∧
    (((MultiProcLocalPipelineOperations.group_by_key [0, 1]
        ([(1, 6), (0, 7), (0, 5)] : List (Nat × Nat))).map
          Prod.fst).Nodup ∧
      (∀ k, k ∈ (MultiProcLocalPipelineOperations.group_by_key [0, 1]
          ([(1, 6), (0, 7), (0, 5)] : List (Nat × Nat))).map Prod.fst ↔
        k ∈ ([(0, 5), (1, 6), (0, 7)] : List (Nat × Nat)).map Prod.fst) ∧
      ∀ k vs, (k, vs) ∈ MultiProcLocalPipelineOperations.group_by_key
          [0, 1] ([(1, 6), (0, 7), (0, 5)] : List (Nat × Nat)) →
        (vs : Multiset Nat) =
          (((([(0, 5), (1, 6), (0, 7)] : List (Nat × Nat)).filter
              (fun kv => decide (kv.1 = k))).map Prod.snd :
            List Nat) : Multiset Nat))) :=
  ⟨⟨by decide, by decide⟩,
    C4_group_by_key_completeness [(0, 5), (1, 6), (0, 7)] [0, 1]
      [(1, 6), (0, 7), (0, 5)] (by decide) (by decide)⟩

/-- C1: the claim is right about the contract (and about Spark's
reduceByKey, shown at the failing input), but the parallel engine's
`reduce_accumulators_per_key` is a slip: it is `map_values(col,
accumulator.merge)` with no grouping, so on the input
[(0, 1), (0, 2)] — two accumulators sharing key 0 — it emits two pairs with
key 0, for every merge function and every pool completion order, instead of
the single pair per distinct key its own docstring, the claim and the other
backends require.  Spark's implementation yields the single folded pair. -/
theorem C1_mp_reduce_not_grouped :
    (∀ (merge : Nat → Nat) (arrival : List (Nat × Nat)),
      arrival.Perm [(0, 1), (0, 2)] →
        (MultiProcLocalPipelineOperations.reduce_accumulators_per_key merge
            arrival).map Prod.fst = [0, 0]) ∧
    SparkRDDOperations.reduce_accumulators_per_key (fun a b => a + b)
        ([(0, 1), (0, 2)] : List (Nat × Nat)) = [(0, 3)] := by
  constructor
  · intro merge arrival harr
    have hmap : (MultiProcLocalPipelineOperations.reduce_accumulators_per_key
        merge arrival).map Prod.fst = arrival.map Prod.fst := by
      rw [MultiProcLocalPipelineOperations.reduce_accumulators_per_key,
        MultiProcLocalPipelineOperations.map_values,
        MultiProcLocalPipelineOperations.map, List.map_map]
      rfl
    rw [hmap]
    have hlen : (arrival.map Prod.fst).length = 2 := by
      rw [List.length_map, harr.length_eq]
      rfl
    have hall : ∀ b ∈ arrival.map Prod.fst, b = 0 := by
      intro b hb
      rcases List.mem_map.mp hb with ⟨kv, hkv, hb2⟩
      have hkv2 : kv = (0, 1) ∨ kv = (0, 2) := by
        simpa using harr.mem_iff.mp hkv
      rcases hkv2 with h | h
      · rw [← hb2, h]
      · rw [← hb2, h]
    have : arrival.map Prod.fst = List.replicate 2 0 :=
      List.eq_replicate_iff.mpr ⟨hlen, hall⟩
    rw [this]
    rfl
  · decide

/-- C1 witness: the failing input itself, with identity completion order. -/
theorem C1_mp_reduce_not_grouped_witness :
    ([(0, 1), (0, 2)] : List (Nat × Nat)).Perm [(0, 1), (0, 2)] ∧
    (MultiProcLocalPipelineOperations.reduce_accumulators_per_key
        (fun a => a) [(0, 1), (0, 2)]).map Prod.fst = [0, 0] :=
  ⟨by decide, C1_mp_reduce_not_grouped.1 (fun a => a) [(0, 1), (0, 2)]
    (by decide)⟩

/-- C6 counterexample: the unordered-flavor `_LazyMultiProcMapIterator`
caches the pool's `imap_unordered` iterator, a one-shot object.  Over input
[0] with the identity task, the first iteration yields [0] and leaves the
cached iterator exhausted; a second iteration attempt yields the empty
sequence — it neither replays the already-produced sequence [0] nor fails. -/
theorem C6_unordered_reiteration_counterexample :
    LazyMultiProcMapIterator.iter (fun n : Nat => n) [0] none =
      ([0], some []) ∧
    LazyMultiProcMapIterator.iter (fun n : Nat => n) [0] (some []) =
      ([], some []) ∧
    ([] : List Nat) ≠ [0] :=
  ⟨rfl, rfl, by decide⟩

/-- C6 amended: for both lazy-iterator flavors a second trigger attempt
re-dispatches nothing (the trigger is idempotent, so the pool's work is
computed at most once and re-iterating never re-executes the tasks); the
ordered flavor replays the cached result list on re-iteration, while the
unordered flavor's re-iteration yields the empty remainder of its consumed
result iterator rather than replaying or failing. -/
theorem C6_trigger_at_most_once {α β : Type} (fn : α → β) :
    (∀ (a1 a2 : List α) (st : Option (List β)),
      LazyMultiProcMapIterator.trigger_iterations fn a1
          (LazyMultiProcMapIterator.trigger_iterations fn a2 st) =
        LazyMultiProcMapIterator.trigger_iterations fn a2 st) ∧
    (∀ (i1 i2 : List α) (st : Option (List β)),
      LazyMultiProcOrderedMapIterator.trigger_iterations fn i1
          (LazyMultiProcOrderedMapIterator.trigger_iterations fn i2 st) =
        LazyMultiProcOrderedMapIterator.trigger_iterations fn i2 st) ∧
    (∀ inputs : List α,
      LazyMultiProcOrderedMapIterator.iter fn inputs
          (LazyMultiProcOrderedMapIterator.iter fn inputs none).2 =
        LazyMultiProcOrderedMapIterator.iter fn inputs none) ∧
    (∀ arrival : List α,
      (LazyMultiProcMapIterator.iter fn arrival
          (LazyMultiProcMapIterator.iter fn arrival none).2).1 = []) := by
  refine ⟨?_, ?_, ?_, ?_⟩
  · intro a1 a2 st
    cases st <;> rfl
  · intro i1 i2 st
    cases st <;> rfl
  · intro inputs
    rfl
  · intro arrival
    rfl

lemma pool_map_fails {α β : Type} (job : α → Except PyExc β) :
    ∀ col : List α, (∃ x ∈ col, ∃ e, job x = .error e) →
      ∃ e, pool_map job col = .error e ∧ ∃ x ∈ col, job x = .error e := by
  intro col
  induction col with
  | nil => rintro ⟨x, hx, _⟩; cases hx
  | cons x xs ih =>
    rintro ⟨y, hy, e, he⟩
    cases hjx : job x with
    | error e0 =>
      refine ⟨e0, ?_, x, List.mem_cons_self x xs, hjx⟩
      simp only [pool_map, hjx]
      rfl
    | ok v =>
      have hyxs : y ∈ xs := by
        rcases List.mem_cons.mp hy with h | h
        · exfalso
          rw [h, hjx] at he
          cases he
        · exact h
      rcases ih ⟨y, hyxs, e, he⟩ with ⟨e1, he1, z, hz, hjz⟩
      refine ⟨e1, ?_, z, List.mem_cons_of_mem x hz, hjz⟩
      simp only [pool_map, hjx, he1]
      rfl

lemma imap_unordered_consume_fails {α β : Type} (job : α → Except PyExc β) :
    ∀ l : List α, (∃ x ∈ l, ∃ e, job x = .error e) →
      ∃ e, (imap_unordered_consume job l).2 = some e ∧
        ∃ x ∈ l, job x = .error e := by
  intro l
  induction l with
  | nil => rintro ⟨x, hx, _⟩; cases hx
  | cons x xs ih =>
    rintro ⟨y, hy, e, he⟩
    cases hjx : job x with
    | error e0 =>
      refine ⟨e0, ?_, x, List.mem_cons_self x xs, hjx⟩
      simp [imap_unordered_consume, hjx]
    | ok v =>
      have hyxs : y ∈ xs := by
        rcases List.mem_cons.mp hy with h | h
        · exfalso
          rw [h, hjx] at he
          cases he
        · exact h
      rcases ih ⟨y, hyxs, e, he⟩ with ⟨e1, he1, z, hz, hjz⟩
      refine ⟨e1, ?_, z, List.mem_cons_of_mem x hz, hjz⟩
      simp [imap_unordered_consume, hjx, he1]

/-- C7 counterexample: a failing worker task propagates its own exception,
not an `ExecutionError` wrapper (no such class exists in the source), and a
consumer of an unordered-mode iterator observes the already-completed
result 0 before the failure arrives — partial output is observable. -/
theorem C7_original_exception_counterexample :
    pool_map (fun _ : Nat => (Except.error PyExc.valueError :
        Except PyExc Nat)) [0] = .error .valueError ∧
    PyExc.valueError ≠ PyExc.executionError PyExc.valueError ∧
    imap_unordered_consume
        (fun n : Nat =>
          if n = 0 then (Except.ok 0 : Except PyExc Nat)
          else .error .valueError)
        [0, 1] = ([0], some .valueError) :=
  ⟨rfl, by decide, rfl⟩

/-- C7 amended: if the task function raises on some input element, the
operator call fails with an original worker exception (unwrapped: no
`ExecutionError` class exists): an ordered-mode call (`pool.map`) raises and
produces no result list at all, and consuming an unordered-mode iterator
raises as well — though there it may first surface the results completed
before the failure, for any completion order. -/
theorem C7_worker_failure_aborts {α β : Type}
    (job : α → Except PyExc β) (col : List α)
    (hfail : ∃ x ∈ col, ∃ e, job x = .error e) :
    (∃ e, pool_map job col = .error e ∧ ∃ x ∈ col, job x = .error e) ∧
    ∀ arrival : List α, arrival.Perm col →
      ∃ e, (imap_unordered_consume job arrival).2 = some e ∧
        ∃ x ∈ col, job x = .error e := by
  refine ⟨pool_map_fails job col hfail, ?_⟩
  intro arrival harr
  rcases hfail with ⟨x, hx, e, he⟩
  rcases imap_unordered_consume_fails job arrival
      ⟨x, harr.mem_iff.mpr hx, e, he⟩ with ⟨e1, he1, z, hz, hjz⟩
  exact ⟨e1, he1, z, harr.mem_iff.mp hz, hjz⟩

/-- C7 witness: a concrete failing job on input [0], consumed in the
identity completion order. -/
theorem C7_worker_failure_aborts_witness :
    (∃ x ∈ [0], ∃ e, (fun _ : Nat => (Except.error PyExc.valueError :
        Except PyExc Nat)) x = .error e) ∧
    ((∃ e, pool_map (fun _ : Nat => (Except.error PyExc.valueError :
          Except PyExc Nat)) [0] = .error e ∧
        ∃ x ∈ [0], (fun _ : Nat => (Except.error PyExc.valueError :
          Except PyExc Nat)) x = .error e) ∧
      ∀ arrival : List Nat, arrival.Perm [0] →
        ∃ e, (imap_unordered_consume (fun _ : Nat =>
            (Except.error PyExc.valueError : Except PyExc Nat))
              arrival).2 = some e ∧
          ∃ x ∈ [0], (fun _ : Nat => (Except.error PyExc.valueError :
            Except PyExc Nat)) x = .error e) :=
  ⟨⟨0, by decide, PyExc.valueError, rfl⟩,
    C7_worker_failure_aborts _ [0] ⟨0, by decide, PyExc.valueError, rfl⟩⟩

/-- C8 counterexample: with an absent (None) keep-list, the parallel engine's
`filter_by_key` call completes without raising anything (its body only builds
a closure and a generator), so nothing fails synchronously at call time;
the failure only appears on consumption, and even then — as on the Beam
backend, which does check synchronously — it is a `TypeError`, not an
`InvalidArgument` (no such error type exists in the code). -/
theorem C8_no_synchronous_invalid_argument :
    MultiProcLocalPipelineOperations.filter_by_key_call
        (none : Option (List Nat)) = .ok () ∧
    BeamOperations.filter_by_key (none : Option (List Nat))
        (fun n : Nat => n) [0] = .error .typeError ∧
    PyExc.typeError ≠ PyExc.invalidArgument ∧
    MultiProcLocalPipelineOperations.filter_by_key_force
        (none : Option (List Nat)) (fun n : Nat => n) [0] =
      .error .typeError :=
  ⟨rfl, rfl, by decide, rfl⟩

/-- C8 amended: with an absent (None) `keys_to_keep`, the Beam and Spark
backends fail synchronously at call time and the sequential backend fails at
call time on any nonempty input (its comprehension is eager), all with
`TypeError` (not `InvalidArgument`, which exists nowhere in the code); the
parallel engine performs no check at call time — its call returns a deferred
collection without error and the `TypeError` surfaces only when that
collection is consumed and a worker evaluates the membership test. -/
theorem C8_absent_keys_failure_modes {κ α : Type} [DecidableEq κ]
    (extractor : α → κ) (col : List α) (hne : col ≠ []) :
    BeamOperations.filter_by_key (none : Option (List κ)) extractor col =
      .error .typeError ∧
    SparkRDDOperations.filter_by_key (none : Option (List κ)) extractor col =
      .error .typeError ∧
    LocalPipelineOperations.filter_by_key (none : Option (List κ)) extractor
        col = .error .typeError ∧
    MultiProcLocalPipelineOperations.filter_by_key_call
        (none : Option (List κ)) = .ok () ∧
    MultiProcLocalPipelineOperations.filter_by_key_force
        (none : Option (List κ)) extractor col = .error .typeError := by
  refine ⟨rfl, rfl, ?_, rfl, ?_⟩
  · cases col with
    | nil => exact absurd rfl hne
    | cons x xs =>
      simp only [LocalPipelineOperations.filter_by_key, py_in]
      rfl
  · cases col with
    | nil => exact absurd rfl hne
    | cons x xs =>
      simp only [MultiProcLocalPipelineOperations.filter_by_key_force,
        pool_map, py_in]
      rfl

/-- C8 witness: concrete nonempty input on the natural numbers. -/
theorem C8_absent_keys_failure_modes_witness :
    ([0] : List Nat) ≠ [] ∧
    (BeamOperations.filter_by_key (none : Option (List Nat))
        (fun n : Nat => n) [0] = .error .typeError ∧
      SparkRDDOperations.filter_by_key (none : Option (List Nat))
        (fun n : Nat => n) [0] = .error .typeError ∧
      LocalPipelineOperations.filter_by_key (none : Option (List Nat))
        (fun n : Nat => n) [0] = .error .typeError ∧
      MultiProcLocalPipelineOperations.filter_by_key_call
        (none : Option (List Nat)) = .ok () ∧
      MultiProcLocalPipelineOperations.filter_by_key_force
        (none : Option (List Nat)) (fun n : Nat => n) [0] =
          .error .typeError) :=
  ⟨by decide, C8_absent_keys_failure_modes (fun n : Nat => n) [0] (by decide)⟩

lemma filterMap_get?_range {ν : Type} (vs : List ν) :
    (List.range vs.length).filterMap vs.get? = vs := by
  induction vs with
  | nil => rfl
  | cons v vs ih =>
    rw [List.length_cons, List.range_succ_eq_map, List.filterMap_cons,
      List.filterMap_map]
    have hcomp : ((v :: vs).get? ∘ Nat.succ) = vs.get? := by
      funext n
      rfl
    rw [hcomp]
    simp [ih]

lemma length_filterMap_get? {ν : Type} (vs : List ν) :
    ∀ idx : List Nat, (∀ i ∈ idx, i < vs.length) →
      (idx.filterMap vs.get?).length = idx.length := by
  intro idx
  induction idx with
  | nil => intro _; rfl
  | cons i rest ih =>
    intro h
    have hi : i < vs.length := h i (List.mem_cons_self i rest)
    rcases List.get?_eq_get hi with hg
    rw [List.filterMap_cons, hg]
    simp only [List.length_cons]
    rw [ih (fun j hj => h j (List.mem_cons_of_mem i hj))]

lemma multiset_filterMap_get?_le {ν : Type} (vs : List ν) (idx : List Nat)
    (hnd : idx.Nodup) (hlt : ∀ i ∈ idx, i < vs.length) :
    ((idx.filterMap vs.get? : List ν) : Multiset ν) ≤ (vs : Multiset ν) := by
  have hsub : idx ⊆ List.range vs.length := fun i hi =>
    List.mem_range.mpr (hlt i hi)
  rcases hnd.subperm hsub with ⟨l2, hperm, hsl⟩
  have h1 : (l2.filterMap vs.get?).Perm (idx.filterMap vs.get?) :=
    hperm.filterMap _
  have h2 : (l2.filterMap vs.get?).Sublist
      ((List.range vs.length).filterMap vs.get?) :=
    hsl.filterMap _
  rw [filterMap_get?_range] at h2
  exact Multiset.coe_le.mpr ⟨l2.filterMap vs.get?, h1, h2⟩

/-- C5: sampling bound on both backends.  Every entry `(k, ws)` of
`sample_fixed_per_key(col, n)` satisfies: if the key's original values
(those paired with `k` in `col`, whose in-order list the filter below
computes) number at most `n`, they are returned in full (exactly on the
sequential backend, as a multiset on the parallel one); if they number more
than `n`, exactly `n` values are returned; and in every case the returned
values form a sub-multiset of the key's original values (drawn without
replacement).  Quantified over every numpy index draw (`ValidChoice`), every
`random.sample` draw (`ValidSample`), every key-set iteration order and
every pool completion order. -/
theorem C5_sample_fixed_per_key_bound {κ ν : Type} [DecidableEq κ]
    (col : List (κ × ν)) (n : Nat)
    (choice : Nat → Nat → List Nat) (hc : ValidChoice choice)
    (py_sample : List ν → Nat → List ν) (hs : ValidSample py_sample)
    (key_order : List κ) (arrival : List (κ × ν))
    (groups_arrival : List (κ × List ν))
    (harr : arrival.Perm col)
    (hga : groups_arrival.Perm
      (MultiProcLocalPipelineOperations.group_by_key key_order arrival)) :
    (∀ k ws,
      (k, ws) ∈ LocalPipelineOperations.sample_fixed_per_key choice n col →
        (((col.filter (fun kv => decide (kv.1 = k))).map Prod.snd).length ≤ n →
          ws = (col.filter (fun kv => decide (kv.1 = k))).map Prod.snd) ∧
        (n < ((col.filter (fun kv => decide (kv.1 = k))).map Prod.snd).length →
          ws.length = n) ∧
        (ws : Multiset ν) ≤
          (((col.filter (fun kv => decide (kv.1 = k))).map Prod.snd :
            List ν) : Multiset ν)) ∧
    (∀ k ws,
      (k, ws) ∈ MultiProcLocalPipelineOperations.sample_fixed_per_key
          py_sample n groups_arrival →
        (((col.filter (fun kv => decide (kv.1 = k))).map Prod.snd).length ≤ n →
          (ws : Multiset ν) =
            (((col.filter (fun kv => decide (kv.1 = k))).map Prod.snd :
              List ν) : Multiset ν)) ∧
        (n < ((col.filter (fun kv => decide (kv.1 = k))).map Prod.snd).length →
          ws.length = n) ∧
        (ws : Multiset ν) ≤
          (((col.filter (fun kv => decide (kv.1 = k))).map Prod.snd :
            List ν) : Multiset ν)) := by
  constructor
  · intro k ws hmem
    rcases List.mem_map.mp hmem with ⟨item, hitem, heq⟩
    have heq2 : (if n < item.2.length then
        (item.1,
          (choice item.2.length n).filterMap (fun i => item.2.get? i))
      else (item.1, item.2)) = (k, ws) := heq
    by_cases hcond : n < item.2.length
    · rw [if_pos hcond] at heq2
      have hk : item.1 = k := congrArg Prod.fst heq2
      have hvs : item.2 = (col.filter (fun kv => decide (kv.1 = k))).map
          Prod.snd := by
        have hmem2 : (item.1, item.2) ∈
            LocalPipelineOperations.group_by_key col := hitem
        rw [hk] at hmem2
        exact local_group_mem hmem2
      have hws : ws =
          (choice item.2.length n).filterMap (fun i => item.2.get? i) :=
        (congrArg Prod.snd heq2).symm
      rcases hc item.2.length n hcond with ⟨hlen, hnd, hlt⟩
      refine ⟨?_, ?_, ?_⟩
      · intro hle
        rw [← hvs] at hle
        omega
      · intro _
        rw [hws]
        have h3 := length_filterMap_get? item.2 (choice item.2.length n) hlt
        rw [hlen] at h3
        exact h3
      · rw [hws, ← hvs]
        exact multiset_filterMap_get?_le item.2 _ hnd hlt
    · rw [if_neg hcond] at heq2
      have hk : item.1 = k := congrArg Prod.fst heq2
      have hvs : item.2 = (col.filter (fun kv => decide (kv.1 = k))).map
          Prod.snd := by
        have hmem2 : (item.1, item.2) ∈
            LocalPipelineOperations.group_by_key col := hitem
        rw [hk] at hmem2
        exact local_group_mem hmem2
      have hws : ws = item.2 := (congrArg Prod.snd heq2).symm
      refine ⟨?_, ?_, ?_⟩
      · intro _
        rw [hws, hvs]
      · intro hgt
        rw [← hvs] at hgt
        omega
      · rw [hws, hvs]
  · intro k ws hmem
    rcases List.mem_map.mp hmem with ⟨row, hrow, heq⟩
    have heq2 : (if n < row.2.length then (row.1, py_sample row.2 n)
        else row) = (k, ws) := heq
    have hrow2 : row ∈ MultiProcLocalPipelineOperations.group_by_key
        key_order arrival := hga.mem_iff.mp hrow
    by_cases hcond : n < row.2.length
    · rw [if_pos hcond] at heq2
      have hk : row.1 = k := congrArg Prod.fst heq2
      have hvs : row.2 = (arrival.filter (fun kv => decide (kv.1 = k))).map
          Prod.snd := by
        have hmem2 : (row.1, row.2) ∈
            MultiProcLocalPipelineOperations.group_by_key key_order
              arrival := hrow2
        rw [hk] at hmem2
        exact mp_group_mem hmem2
      have hperm : (row.2 : List ν).Perm
          ((col.filter (fun kv => decide (kv.1 = k))).map Prod.snd) := by
        rw [hvs]
        exact (harr.filter (fun kv => decide (kv.1 = k))).map Prod.snd
      have hlen_eq : row.2.length =
          ((col.filter (fun kv => decide (kv.1 = k))).map Prod.snd).length :=
        hperm.length_eq
      have hws : ws = py_sample row.2 n := (congrArg Prod.snd heq2).symm
      rcases hs row.2 n hcond with ⟨hslen, hsle⟩
      refine ⟨?_, ?_, ?_⟩
      · intro hle
        omega
      · intro _
        rw [hws, hslen]
      · rw [hws]
        exact le_trans hsle (le_of_eq (Multiset.coe_eq_coe.mpr hperm))
    · rw [if_neg hcond] at heq2
      have hk : row.1 = k := congrArg Prod.fst heq2
      have hvs : row.2 = (arrival.filter (fun kv => decide (kv.1 = k))).map
          Prod.snd := by
        have hmem2 : (row.1, row.2) ∈
            MultiProcLocalPipelineOperations.group_by_key key_order
              arrival := hrow2
        rw [hk] at hmem2
        exact mp_group_mem hmem2
      have hperm : (row.2 : List ν).Perm
          ((col.filter (fun kv => decide (kv.1 = k))).map Prod.snd) := by
        rw [hvs]
        exact (harr.filter (fun kv => decide (kv.1 = k))).map Prod.snd
      have hlen_eq : row.2.length =
          ((col.filter (fun kv => decide (kv.1 = k))).map Prod.snd).length :=
        hperm.length_eq
      have hws : ws = row.2 := (congrArg Prod.snd heq2).symm
      refine ⟨?_, ?_, ?_⟩
      · intro _
        rw [hws]
        exact Multiset.coe_eq_coe.mpr hperm
      · intro hgt
        omega
      · rw [hws]
        exact le_of_eq (Multiset.coe_eq_coe.mpr hperm)

/-- C5 witness: a two-value key sampled down to one value, with the
range-prefix index draw for numpy and the take-prefix draw for
random.sample, at concrete key and completion orders. -/
theorem C5_sample_fixed_per_key_bound_witness :
    (ValidChoice (fun _ m => List.range m) ∧
      ValidSample (fun (vs : List Nat) m => vs.take m) ∧
      ([(0, 6), (0, 5)] : List (Nat × Nat)).Perm [(0, 5), (0, 6)] ∧
      ([(0, [6, 5])] : List (Nat × List Nat)).Perm
        (MultiProcLocalPipelineOperations.group_by_key [0] [(0, 6), (0, 5)])) ∧
    ((∀ k ws,
      (k, ws) ∈ LocalPipelineOperations.sample_fixed_per_key
          (fun _ m => List.range m) 1 ([(0, 5), (0, 6)] : List (Nat × Nat)) →
        (((([(0, 5), (0, 6)] : List (Nat × Nat)).filter
            (fun kv => decide (kv.1 = k))).map Prod.snd).length ≤ 1 →
          ws = (([(0, 5), (0, 6)] : List (Nat × Nat)).filter
            (fun kv => decide (kv.1 = k))).map Prod.snd) ∧
        (1 < ((([(0, 5), (0, 6)] : List (Nat × Nat)).filter
            (fun kv => decide (kv.1 = k))).map Prod.snd).length →
          ws.length = 1) ∧
        (ws : Multiset Nat) ≤
          (((([(0, 5), (0, 6)] : List (Nat × Nat)).filter
              (fun kv => decide (kv.1 = k))).map Prod.snd :
            List Nat) : Multiset Nat)) ∧
    (∀ k ws,
      (k, ws) ∈ MultiProcLocalPipelineOperations.sample_fixed_per_key
          (fun (vs : List Nat) m => vs.take m) 1 [(0, [6, 5])] →
        (((([(0, 5), (0, 6)] : List (Nat × Nat)).filter
            (fun kv => decide (kv.1 = k))).map Prod.snd).length ≤ 1 →
          (ws : Multiset Nat) =
            (((([(0, 5), (0, 6)] : List (Nat × Nat)).filter
                (fun kv => decide (kv.1 = k))).map Prod.snd :
              List Nat) : Multiset Nat)) ∧
        (1 < ((([(0, 5), (0, 6)] : List (Nat × Nat)).filter
            (fun kv => decide (kv.1 = k))).map Prod.snd).length →
          ws.length = 1) ∧
        (ws : Multiset Nat) ≤
          (((([(0, 5), (0, 6)] : List (Nat × Nat)).filter
              (fun kv => decide (kv.1 = k))).map Prod.snd :
            List Nat) : Multiset Nat))) :=
  have hc : ValidChoice (fun _ m => List.range m) := fun len m h =>
    ⟨List.length_range m, List.nodup_range m,
      fun i hi => lt_trans (List.mem_range.mp hi) h⟩
  have hs : ValidSample (fun (vs : List Nat) m => vs.take m) := fun vs m h =>
    ⟨by rw [List.length_take]; omega,
      Multiset.coe_le.mpr (List.take_sublist m vs).subperm⟩
  ⟨⟨hc, hs, by decide, by decide⟩,
    C5_sample_fixed_per_key_bound [(0, 5), (0, 6)] 1 (fun _ m => List.range m)
      hc (fun (vs : List Nat) m => vs.take m) hs [0] [(0, 6), (0, 5)]
      [(0, [6, 5])] (by decide) (by decide)⟩

end PipelineOps
